import Mathlib

/-!
Verification of the value-marshalling core of `playwright/js_handle.py`:
`serialize_value`, `serialize_argument`, `parse_value` and `parse_result`.

The embedding models Python's dynamically typed values by the inductive type
`PyValue`.  Python floats are modelled by `PyFloat`, which distinguishes the
IEEE-754 values the code distinguishes: NaN, the two infinities, negative
zero, and finite rationals (with `finite 0` standing for positive zero).
Python's `==` on floats is modelled by `PyFloat.feq`; in particular
`feq (finite 0) negZero = true`, mirroring `0.0 == -0.0` in IEEE arithmetic,
and `feq nan x = false` for every `x`.

Python dicts are modelled as insertion-ordered association lists with string
keys; a Python dict never has a duplicate key, and all values built by the
functions below keep that invariant.  Mutation of the `handles` list is
modelled by explicit state passing: each serializer returns the updated list.
Raised exceptions are modelled by `Except.error`.
-/

inductive PyFloat where
  | nan
  | inf
  | ninf
  | negZero
  | finite (q : ℚ)
deriving DecidableEq

/-- Python's `math.isnan`. -/
def PyFloat.isnan : PyFloat → Bool
  | .nan => true
  | _ => false

/-- Python's `==` on floats (IEEE-754 equality): NaN compares unequal to
everything, and negative zero compares equal to (positive) zero. -/
def PyFloat.feq : PyFloat → PyFloat → Bool
  | .nan, _ => false
  | _, .nan => false
  | .inf, .inf => true
  | .ninf, .ninf => true
  | .negZero, .negZero => true
  | .negZero, .finite q => q == 0
  | .finite q, .negZero => q == 0
  | .finite q, .finite r => q == r
  | _, _ => false

/-- A Python `datetime.datetime`: calendar fields plus an optional UTC offset
in minutes (`Option.none` models a naive datetime with `tzinfo=None`). -/
structure PyDatetime where
  year : Nat
  month : Nat
  day : Nat
  hour : Nat
  minute : Nat
  second : Nat
  microsecond : Nat
  utcoffsetMinutes : Option Int
deriving DecidableEq

/-- Decimal rendering of `n` left-padded with zeros to at least `width`
digits, as `%0*d` does for the fields of `datetime.isoformat`. -/
def padNum (width : Nat) (n : Nat) : String :=
  let s := toString n
  String.mk (List.replicate (width - s.length) '0') ++ s

/-- The `±HH:MM` rendering of a UTC offset given in minutes, as
`datetime.isoformat` appends for an aware datetime. -/
def offsetString (off : Int) : String :=
  if 0 ≤ off then
    "+" ++ padNum 2 (off.toNat / 60) ++ ":" ++ padNum 2 (off.toNat % 60)
  else
    "-" ++ padNum 2 ((-off).toNat / 60) ++ ":" ++ padNum 2 ((-off).toNat % 60)

/-- Python's `datetime.isoformat()`: `YYYY-MM-DDTHH:MM:SS`, followed by
`.ffffff` when the microsecond field is nonzero, followed by `±HH:MM` when
the datetime is aware.  Note that it renders the stored local fields and the
stored offset as they are; it performs no timezone conversion. -/
def PyDatetime.isoformat (d : PyDatetime) : String :=
  padNum 4 d.year ++ "-" ++ padNum 2 d.month ++ "-" ++ padNum 2 d.day ++ "T"
    ++ padNum 2 d.hour ++ ":" ++ padNum 2 d.minute ++ ":" ++ padNum 2 d.second
    ++ (if d.microsecond = 0 then "" else "." ++ padNum 6 d.microsecond)
    ++ (match d.utcoffsetMinutes with
        | Option.none => ""
        | some off => offsetString off)

/-- Numeric value of a decimal digit character. -/
def digitVal (c : Char) : Option Nat :=
  if c.isDigit then some (c.toNat - 48) else Option.none

/-- Reads exactly `n` decimal digits, extending the accumulator `acc`. -/
def parseNDigits : Nat → Nat → List Char → Option (Nat × List Char)
  | 0, acc, cs => some (acc, cs)
  | n + 1, acc, c :: cs =>
      match digitVal c with
      | some d => parseNDigits n (acc * 10 + d) cs
      | Option.none => Option.none
  | _ + 1, _, [] => Option.none

/-- Consumes one expected character. -/
def expectChar (c : Char) : List Char → Option (List Char)
  | d :: rest => if d = c then some rest else Option.none
  | [] => Option.none

/-- Reads an optional trailing UTC offset `±HH:MM`; an empty remainder means
a naive datetime.  Anything else fails. -/
def parseOffset : List Char → Option (Option Int)
  | [] => some Option.none
  | '+' :: rest => do
      let (h, rest) ← parseNDigits 2 0 rest
      let rest ← expectChar ':' rest
      let (m, rest) ← parseNDigits 2 0 rest
      match rest with
      | [] => some (some ((h * 60 + m : Nat) : Int))
      | _ => Option.none
  | '-' :: rest => do
      let (h, rest) ← parseNDigits 2 0 rest
      let rest ← expectChar ':' rest
      let (m, rest) ← parseNDigits 2 0 rest
      match rest with
      | [] => some (some (-((h * 60 + m : Nat) : Int)))
      | _ => Option.none
  | _ => Option.none

/-- Reads an optional fractional-seconds part: absent, `.fff` (milliseconds)
or `.ffffff` (microseconds), as `datetime.fromisoformat` accepts. -/
def parseFraction : List Char → Option (Nat × List Char)
  | '.' :: rest =>
      match parseNDigits 6 0 rest with
      | some (us, rest) => some (us, rest)
      | Option.none =>
          match parseNDigits 3 0 rest with
          | some (ms, rest) => some (ms * 1000, rest)
          | Option.none => Option.none
  | cs => some (0, cs)

/-- Core of Python's `datetime.fromisoformat` on the grammar produced by
`datetime.isoformat`: `YYYY-MM-DD`, optionally followed by a one-character
separator, `HH:MM:SS`, an optional fraction and an optional `±HH:MM` offset.
Range validation of the calendar fields is not modelled; no theorem below
depends on it. -/
def fromisoformatCore (cs : List Char) : Option PyDatetime := do
  let (y, rest) ← parseNDigits 4 0 cs
  let rest ← expectChar '-' rest
  let (mo, rest) ← parseNDigits 2 0 rest
  let rest ← expectChar '-' rest
  let (da, rest) ← parseNDigits 2 0 rest
  match rest with
  | [] => some ⟨y, mo, da, 0, 0, 0, 0, Option.none⟩
  | _sep :: rest => do
      let (h, rest) ← parseNDigits 2 0 rest
      let rest ← expectChar ':' rest
      let (mi, rest) ← parseNDigits 2 0 rest
      let rest ← expectChar ':' rest
      let (se, rest) ← parseNDigits 2 0 rest
      let (us, rest) ← parseFraction rest
      let off ← parseOffset rest
      some ⟨y, mo, da, h, mi, se, us, off⟩

/-- Python's `datetime.fromisoformat`; a string outside the grammar raises
`ValueError`, modelled as `Except.error`. -/
def fromisoformat (s : String) : Except String PyDatetime :=
  match fromisoformatCore s.toList with
  | some d => .ok d
  | Option.none => .error ("Invalid isoformat string: " ++ s)

/-- A Python value as seen by the marshalling code.  `handle channel` models
a `JSHandle` whose `_channel` is the identifier `channel` (the serializer
only ever reads that field).  `dict` entries are in insertion order with
unique keys.  `other tag` models a value of any type the serializer does not
recognise (a set, bytes, an arbitrary object, ...), which `serialize_value`
sends to its final fallback branch. -/
inductive PyValue where
  | none
  | bool (b : Bool)
  | int (n : Int)
  | float (f : PyFloat)
  | str (s : String)
  | datetime (d : PyDatetime)
  | list (xs : List PyValue)
  | dict (entries : List (String × PyValue))
  | handle (channel : Nat)
  | other (tag : String)

/-- Python's `isinstance(value, JSHandle)`. -/
def PyValue.isHandle : PyValue → Bool
  | .handle _ => true
  | _ => false

/-- `is_primitive_value` from the source: bool, int, float or str. -/
def is_primitive_value : PyValue → Bool
  | .bool _ => true
  | .int _ => true
  | .float _ => true
  | .str _ => true
  | _ => false

/-- First value stored under key `k`, modelling `value[k]` / `k in value`
on a Python dict (whose keys are unique). -/
def lookupKey (k : String) (entries : List (String × PyValue)) : Option PyValue :=
  (entries.find? (fun p => p.1 == k)).map (fun p => p.2)

mutual

/-- `serialize_value(value, handles, depth)` from the source.  The mutated
`handles` list is threaded explicitly; the raised `Error("Maximum argument
depth exceeded")` is `Except.error`.  The branches follow the source order:
`JSHandle` first, then the depth guard, then `None`, the float sentinels
(compared with Python `==`, and with the source's duplicated negative-zero
test kept), `datetime`, the primitive fallthrough, `list`, `dict`, and the
final `undefined` fallback for unrecognised types. -/
def serialize_value (value : PyValue) (handles : List Nat) (depth : Nat) :
    Except String (PyValue × List Nat) :=
  match value with
  | .handle c => .ok (.dict [("h", .int handles.length)], handles ++ [c])
  | v =>
    if 100 < depth then .error "Maximum argument depth exceeded"
    else
      match v with
      | .none => .ok (.dict [("v", .str "undefined")], handles)
      | .float f =>
          if f.feq .inf then .ok (.dict [("v", .str "Infinity")], handles)
          else if f.feq .ninf then .ok (.dict [("v", .str "-Infinity")], handles)
          else if f.feq .negZero then .ok (.dict [("v", .str "-0")], handles)
          else if f.feq .negZero then .ok (.dict [("v", .str "-0")], handles)
          else if f.isnan then .ok (.dict [("v", .str "NaN")], handles)
          else .ok (.float f, handles)
      | .datetime d => .ok (.dict [("d", .str (d.isoformat ++ "Z"))], handles)
      | .bool b => .ok (.bool b, handles)
      | .int n => .ok (.int n, handles)
      | .str s => .ok (.str s, handles)
      | .list xs =>
          match serializeList xs handles (depth + 1) with
          | .error e => .error e
          | .ok (ws, hs) => .ok (.dict [("a", .list ws)], hs)
      | .dict es =>
          match serializeDict es handles (depth + 1) with
          | .error e => .error e
          | .ok (ws, hs) => .ok (.dict [("o", .dict ws)], hs)
      | .handle c => .ok (.dict [("h", .int handles.length)], handles ++ [c])
      | .other _ => .ok (.dict [("v", .str "undefined")], handles)

/-- `list(map(lambda a: serialize_value(a, handles, depth), value))`:
elements are serialized left to right, threading the handle list. -/
def serializeList (xs : List PyValue) (handles : List Nat) (depth : Nat) :
    Except String (List PyValue × List Nat) :=
  match xs with
  | [] => .ok ([], handles)
  | a :: rest =>
      match serialize_value a handles depth with
      | .error e => .error e
      | .ok (w, hs1) =>
          match serializeList rest hs1 depth with
          | .error e => .error e
          | .ok (ws, hs2) => .ok ((w :: ws), hs2)

/-- The `for name in value: result[name] = serialize_value(value[name], ...)`
loop: entries are processed in insertion order, keys copied unchanged. -/
def serializeDict (es : List (String × PyValue)) (handles : List Nat) (depth : Nat) :
    Except String (List (String × PyValue) × List Nat) :=
  match es with
  | [] => .ok ([], handles)
  | (k, a) :: rest =>
      match serialize_value a handles depth with
      | .error e => .error e
      | .ok (w, hs1) =>
          match serializeDict rest hs1 depth with
          | .error e => .error e
          | .ok (ws, hs2) => .ok (((k, w) :: ws), hs2)

end

/-- The `{value, handles}` envelope returned by `serialize_argument`. -/
structure SerializedArgument where
  value : PyValue
  handles : List Nat

/-- `serialize_argument(arg)` from the source: serialize with a fresh handle
list at depth 0 and package the envelope. -/
def serialize_argument (arg : PyValue) : Except String SerializedArgument :=
  match serialize_value arg [] 0 with
  | .error e => .error e
  | .ok (value, handles) => .ok ⟨value, handles⟩

/-- A value found by `lookupKey` is structurally smaller than the entry list
it was found in; this justifies the recursion of `parse_value` into tag
payloads. -/
theorem lookupKey_sizeOf {k : String} {entries : List (String × PyValue)}
    {p : PyValue} (h : lookupKey k entries = some p) :
    sizeOf p < 1 + sizeOf entries := by
  obtain ⟨pr, hfind, hp⟩ :
      ∃ pr, entries.find? (fun q => q.1 == k) = some pr ∧ pr.2 = p := by
    unfold lookupKey at h
    cases hf : entries.find? (fun q => q.1 == k) with
    | none => simp [hf] at h
    | some pr => exact ⟨pr, rfl, by simpa [hf] using h⟩
  have hmem : pr ∈ entries := List.mem_of_find?_eq_some hfind
  have hlt : sizeOf pr < sizeOf entries := List.sizeOf_lt_of_mem hmem
  obtain ⟨k', v'⟩ := pr
  cases hp
  simp only [Prod.mk.sizeOf_spec] at hlt
  show sizeOf v' < 1 + sizeOf entries
  omega

mutual

/-- `parse_value(value)` from the source.  `None` maps to `None`; a dict is
inspected for the tags `v`, `a`, `d`, `o` in that order (`"v" in value`
etc.); any other value — and any dict carrying none of those four keys — is
returned unchanged.  There is no handle case and no resolver parameter.
In the `v` branch the sentinel comparisons are Python `==` against string
literals, so they can only succeed when the payload is a string; a
non-string payload is returned unchanged.  In the `a` branch the payload is
iterated: a list yields its elements; a string yields its characters (each a
one-character string, which `parse_value` returns unchanged); a dict yields
its keys; iterating any other payload raises `TypeError`.  In the `d` branch
`value["d"][:-1]` requires a string payload (then `fromisoformat` runs); in
the `o` branch a non-dict payload likewise raises. -/
def parse_value (value : PyValue) : Except String PyValue :=
  match value with
  | .none => .ok .none
  | .dict entries =>
      match lookupKey "v" entries with
      | some v =>
          match v with
          | .str s =>
              if s = "Infinity" then .ok (.float .inf)
              else if s = "-Infinity" then .ok (.float .ninf)
              else if s = "-0" then .ok (.float .negZero)
              else if s = "NaN" then .ok (.float .nan)
              else if s = "undefined" then .ok .none
              else if s = "null" then .ok .none
              else .ok (.str s)
          | w => .ok w
      | Option.none =>
      match ha : lookupKey "a" entries with
      | some a =>
          match a with
          | .list xs => (parseList xs).map (fun vs => .list vs)
          | .str s => .ok (.list (s.toList.map (fun c => .str c.toString)))
          | .dict es => .ok (.list (es.map (fun p => .str p.1)))
          | _ => .error "TypeError: payload of tag a is not iterable"
      | Option.none =>
      match lookupKey "d" entries with
      | some d =>
          match d with
          | .str s => (fromisoformat (s.dropRight 1)).map (fun dt => .datetime dt)
          | _ => .error "TypeError: payload of tag d is not a string"
      | Option.none =>
      match ho : lookupKey "o" entries with
      | some o =>
          match o with
          | .dict es => (parseDict es).map (fun vs => .dict vs)
          | _ => .error "TypeError: payload of tag o is not a dict"
      | Option.none => .ok (.dict entries)
  | v => .ok v
termination_by sizeOf value
decreasing_by
  all_goals first
    | (have h1 := lookupKey_sizeOf ha
       simp only [PyValue.list.sizeOf_spec, PyValue.dict.sizeOf_spec] at h1 ⊢
       omega)
    | (have h1 := lookupKey_sizeOf ho
       simp only [PyValue.dict.sizeOf_spec] at h1 ⊢
       omega)

/-- `list(map(lambda e: parse_value(e), ...))` over a list payload. -/
def parseList (xs : List PyValue) : Except String (List PyValue) :=
  match xs with
  | [] => .ok []
  | w :: rest =>
      match parse_value w with
      | .error e => .error e
      | .ok v =>
          match parseList rest with
          | .error e => .error e
          | .ok vs => .ok (v :: vs)
termination_by sizeOf xs
decreasing_by
  all_goals simp only [List.cons.sizeOf_spec] <;> omega

/-- The `for name in o: result[name] = parse_value(o[name])` loop. -/
def parseDict (es : List (String × PyValue)) : Except String (List (String × PyValue)) :=
  match es with
  | [] => .ok []
  | (k, w) :: rest =>
      match parse_value w with
      | .error e => .error e
      | .ok v =>
          match parseDict rest with
          | .error e => .error e
          | .ok vs => .ok ((k, v) :: vs)
termination_by sizeOf es
decreasing_by
  all_goals simp only [List.cons.sizeOf_spec, Prod.mk.sizeOf_spec] <;> omega

end

/-- `parse_result(result)` from the source. -/
def parse_result (result : PyValue) : Except String PyValue :=
  parse_value result

mutual

/-- Sufficient condition for Python `==` on two values: structural equality
except that floats are compared with IEEE-754 equality (`PyFloat.feq`), so
that `-0.0` and `0.0` compare equal.  It is order-sensitive on dict entries
and does not model Python's cross-type numeric equalities, so
`pyEq a b = true` implies `a == b` in Python. -/
def pyEq : PyValue → PyValue → Bool
  | .none, .none => true
  | .bool a, .bool b => a == b
  | .int a, .int b => a == b
  | .float f, .float g => f.feq g
  | .str a, .str b => a == b
  | .datetime a, .datetime b => a == b
  | .list xs, .list ys => pyEqList xs ys
  | .dict es, .dict fs => pyEqDict es fs
  | .handle a, .handle b => a == b
  | .other a, .other b => a == b
  | _, _ => false

def pyEqList : List PyValue → List PyValue → Bool
  | [], [] => true
  | x :: xs, y :: ys => pyEq x y && pyEqList xs ys
  | _, _ => false

def pyEqDict : List (String × PyValue) → List (String × PyValue) → Bool
  | [], [] => true
  | (k1, v1) :: r1, (k2, v2) :: r2 => k1 == k2 && pyEq v1 v2 && pyEqDict r1 r2
  | _, _ => false

end

mutual

/-- The fragment of native values named by the round-trip property: booleans,
finite numbers (integers and finite floats, including both zeros), strings,
lists and string-keyed dicts — no `None`, no datetimes, no handles, no
unrecognised types, no NaN or infinities. -/
def isPlainData : PyValue → Bool
  | .bool _ => true
  | .int _ => true
  | .float .negZero => true
  | .float (.finite _) => true
  | .float _ => false
  | .str _ => true
  | .list xs => isPlainDataList xs
  | .dict es => isPlainDataDict es
  | _ => false

def isPlainDataList : List PyValue → Bool
  | [] => true
  | x :: rest => isPlainData x && isPlainDataList rest

def isPlainDataDict : List (String × PyValue) → Bool
  | [] => true
  | (_, v) :: rest => isPlainData v && isPlainDataDict rest

end

mutual

/-- Channels of the handles contained in a value, in the depth-first
left-to-right order in which `serialize_value` visits them. -/
def collectChannels : PyValue → List Nat
  | .handle c => [c]
  | .list xs => collectChannelsList xs
  | .dict es => collectChannelsDict es
  | _ => []

def collectChannelsList : List PyValue → List Nat
  | [] => []
  | x :: rest => collectChannels x ++ collectChannelsList rest

def collectChannelsDict : List (String × PyValue) → List Nat
  | [] => []
  | (_, v) :: rest => collectChannels v ++ collectChannelsDict rest

end

/-- Recognises a dict whose entries have exactly the shape of an encoder
handle-tag node, `{h: <int>}`, and extracts the carried index. -/
def rawHandleIndex : List (String × PyValue) → Option Int
  | [(k, v)] =>
      if k = "h" then
        match v with
        | .int i => some i
        | _ => Option.none
      else Option.none
  | _ => Option.none

mutual

/-- Indices carried by the handle-tag nodes (`{h: <int>}`) of a wire value,
collected over wire-node positions only: the root is a node, the sub-nodes
of an array-tag node are its payload's elements, and the sub-nodes of an
object-tag node are its payload mapping's values — the payload mapping
itself is not a node.  These are exactly the positions the decoder recurses
into.  Scalar-tag, date-tag and unrecognised nodes have no sub-nodes (the
decoder returns the latter unchanged without recursing). -/
def wireHandleIndices : PyValue → List Int
  | .dict [("a", .list xs)] => wireHandleIndicesList xs
  | .dict [("o", .dict ws)] => wireHandleIndicesDict ws
  | .dict es =>
      match rawHandleIndex es with
      | some i => [i]
      | Option.none => []
  | _ => []

def wireHandleIndicesList : List PyValue → List Int
  | [] => []
  | x :: rest => wireHandleIndices x ++ wireHandleIndicesList rest

def wireHandleIndicesDict : List (String × PyValue) → List Int
  | [] => []
  | (_, v) :: rest => wireHandleIndices v ++ wireHandleIndicesDict rest

end

/-- Every handle-tag index in `w` is a valid zero-based index into a
handle list of length `n`. -/
def handleIndicesValid (w : PyValue) (n : Nat) : Bool :=
  (wireHandleIndices w).all (fun i => decide (0 ≤ i) && decide (i < (n : Int)))

/-- Whether decoding the wire value `w` succeeds with a value that is
Python-`==` to `v`. -/
def decodesBackTo (w v : PyValue) : Bool :=
  match parse_value w with
  | .ok v' => pyEq v' v
  | .error _ => false

/-- A list nested `n` levels deep: `nestList 0 = 1`,
`nestList (n+1) = [nestList n]`. -/
def nestList : Nat → PyValue
  | 0 => .int 1
  | n + 1 => .list [nestList n]

/-!
General-purpose lemmas about the embedding: an induction principle for
`PyValue` (whose nested `List` occurrences need a size-based argument), and
evaluation lemmas for `parse_value` on the wire shapes the encoder emits.
-/

/-- Induction over `PyValue` with inductive hypotheses for the members of
nested lists and dicts. -/
theorem PyValue.inductionOn {P : PyValue → Prop} (v : PyValue)
    (hnone : P .none)
    (hbool : ∀ b, P (.bool b))
    (hint : ∀ n, P (.int n))
    (hfloat : ∀ f, P (.float f))
    (hstr : ∀ s, P (.str s))
    (hdatetime : ∀ d, P (.datetime d))
    (hlist : ∀ xs, (∀ x ∈ xs, P x) → P (.list xs))
    (hdict : ∀ es, (∀ p ∈ es, P p.2) → P (.dict es))
    (hhandle : ∀ c, P (.handle c))
    (hother : ∀ t, P (.other t)) : P v := by
  have H : ∀ n (v : PyValue), sizeOf v = n → P v := by
    intro n
    induction n using Nat.strong_induction_on with
    | _ n ih =>
      intro v hv
      cases v with
      | none => exact hnone
      | bool b => exact hbool b
      | int m => exact hint m
      | float f => exact hfloat f
      | str s => exact hstr s
      | datetime d => exact hdatetime d
      | handle c => exact hhandle c
      | other t => exact hother t
      | list xs =>
          refine hlist xs (fun x hx => ih (sizeOf x) ?_ x rfl)
          have hlt := List.sizeOf_lt_of_mem hx
          subst hv
          simp only [PyValue.list.sizeOf_spec]
          omega
      | dict es =>
          refine hdict es (fun p hp => ih (sizeOf p.2) ?_ p.2 rfl)
          have hlt := List.sizeOf_lt_of_mem hp
          obtain ⟨a, b⟩ := p
          subst hv
          simp only [PyValue.dict.sizeOf_spec, Prod.mk.sizeOf_spec] at hlt ⊢
          omega
  exact H (sizeOf v) v rfl

/-- Decoding a wire value that is not `None` and not a dict returns it
unchanged (`parse_value` falls through to `return value`). -/
theorem parse_value_bool (b : Bool) : parse_value (.bool b) = .ok (.bool b) := by
  simp only [parse_value]

theorem parse_value_int (n : Int) : parse_value (.int n) = .ok (.int n) := by
  simp only [parse_value]

theorem parse_value_float (f : PyFloat) : parse_value (.float f) = .ok (.float f) := by
  simp only [parse_value]

theorem parse_value_str (s : String) : parse_value (.str s) = .ok (.str s) := by
  simp only [parse_value]

theorem parse_value_list (xs : List PyValue) :
    parse_value (.list xs) = .ok (.list xs) := by
  simp only [parse_value]

/-- Decoding the scalar-tag sentinels. -/
theorem parse_value_undefined :
    parse_value (.dict [("v", .str "undefined")]) = .ok .none := by
  simp only [parse_value]; rfl

theorem parse_value_null :
    parse_value (.dict [("v", .str "null")]) = .ok .none := by
  simp only [parse_value]; rfl

theorem parse_value_minus_zero :
    parse_value (.dict [("v", .str "-0")]) = .ok (.float .negZero) := by
  simp only [parse_value]; rfl

theorem parse_value_infinity :
    parse_value (.dict [("v", .str "Infinity")]) = .ok (.float .inf) := by
  simp only [parse_value]; rfl

theorem parse_value_neg_infinity :
    parse_value (.dict [("v", .str "-Infinity")]) = .ok (.float .ninf) := by
  simp only [parse_value]; rfl

theorem parse_value_nan :
    parse_value (.dict [("v", .str "NaN")]) = .ok (.float .nan) := by
  simp only [parse_value]; rfl

/-- Decoding an array-tag node maps `parse_value` over the payload. -/
theorem parse_value_tag_a (ws : List PyValue) :
    parse_value (.dict [("a", .list ws)]) =
      (parseList ws).map (fun vs => .list vs) := by
  simp only [parse_value]; rfl

/-- Decoding an object-tag node maps `parse_value` over the payload values. -/
theorem parse_value_tag_o (ws : List (String × PyValue)) :
    parse_value (.dict [("o", .dict ws)]) =
      (parseDict ws).map (fun vs => .dict vs) := by
  simp only [parse_value]; rfl

/-- Decoding a date-tag node strips the final character and parses. -/
theorem parse_value_tag_d (s : String) :
    parse_value (.dict [("d", .str s)]) =
      (fromisoformat (s.dropRight 1)).map (fun dt => .datetime dt) := by
  simp only [parse_value]; rfl

/-- The handle branch of `serialize_value` runs before everything else,
including the depth guard: at any depth it appends the handle's channel and
emits the index it was appended at. -/
theorem serialize_value_handle (c : Nat) (hs : List Nat) (d : Nat) :
    serialize_value (.handle c) hs d =
      .ok (.dict [("h", .int hs.length)], hs ++ [c]) := rfl

/-- For every non-handle value the depth guard fires first: above the
ceiling the call fails before looking at the value's content. -/
theorem serialize_depth_exceeded (v : PyValue) (hs : List Nat) (d : Nat)
    (hd : 100 < d) (hv : v.isHandle = false) :
    serialize_value v hs d = .error "Maximum argument depth exceeded" := by
  cases v <;> simp_all [serialize_value, PyValue.isHandle]

/-- On success, `serializeList` extends the handle list exactly by the
channels collected from its elements, in order. -/
theorem serializeList_handles :
    ∀ xs : List PyValue,
    (∀ x ∈ xs, ∀ (hs : List Nat) (d : Nat) (w : PyValue) (hs' : List Nat),
        serialize_value x hs d = .ok (w, hs') → hs' = hs ++ collectChannels x) →
    ∀ (hs : List Nat) (d : Nat) (ws : List PyValue) (hs' : List Nat),
      serializeList xs hs d = .ok (ws, hs') →
      hs' = hs ++ collectChannelsList xs := by
  intro xs
  induction xs with
  | nil =>
      intro _ hs d ws hs' h
      simp only [serializeList, Except.ok.injEq, Prod.mk.injEq] at h
      simp [collectChannelsList, ← h.2]
  | cons a rest ihr =>
      intro ih hs d ws hs' h
      simp only [serializeList] at h
      split at h
      · exact Except.noConfusion h
      · rename_i w1 hs1 h1
        split at h
        · exact Except.noConfusion h
        · rename_i ws2 hs2 h2
          simp only [Except.ok.injEq, Prod.mk.injEq] at h
          have e1 := ih a (by simp) hs d w1 hs1 h1
          have e2 := ihr (fun x hx => ih x (by simp [hx])) hs1 d ws2 hs2 h2
          subst e1
          simp [collectChannelsList, ← h.2, e2, List.append_assoc]

/-- On success, `serializeDict` extends the handle list exactly by the
channels collected from its entry values, in order. -/
theorem serializeDict_handles :
    ∀ es : List (String × PyValue),
    (∀ p ∈ es, ∀ (hs : List Nat) (d : Nat) (w : PyValue) (hs' : List Nat),
        serialize_value p.2 hs d = .ok (w, hs') → hs' = hs ++ collectChannels p.2) →
    ∀ (hs : List Nat) (d : Nat) (ws : List (String × PyValue)) (hs' : List Nat),
      serializeDict es hs d = .ok (ws, hs') →
      hs' = hs ++ collectChannelsDict es := by
  intro es
  induction es with
  | nil =>
      intro _ hs d ws hs' h
      simp only [serializeDict, Except.ok.injEq, Prod.mk.injEq] at h
      simp [collectChannelsDict, ← h.2]
  | cons p rest ihr =>
      obtain ⟨k, a⟩ := p
      intro ih hs d ws hs' h
      simp only [serializeDict] at h
      split at h
      · exact Except.noConfusion h
      · rename_i w1 hs1 h1
        split at h
        · exact Except.noConfusion h
        · rename_i ws2 hs2 h2
          simp only [Except.ok.injEq, Prod.mk.injEq] at h
          have e1 := ih (k, a) (by simp) hs d w1 hs1 h1
          have e2 := ihr (fun x hx => ih x (by simp [hx])) hs1 d ws2 hs2 h2
          subst e1
          simp [collectChannelsDict, ← h.2, e2, List.append_assoc]

/-- On success, `serialize_value` appends to the handle list exactly the
channels of the handles occurring in the value, in depth-first
left-to-right order. -/
theorem serialize_value_handles (v : PyValue) :
    ∀ (hs : List Nat) (d : Nat) (w : PyValue) (hs' : List Nat),
      serialize_value v hs d = .ok (w, hs') → hs' = hs ++ collectChannels v := by
  induction v using PyValue.inductionOn with
  | hlist xs ihm =>
      intro hs d w hs' h
      simp only [serialize_value] at h
      split at h
      · exact Except.noConfusion h
      · split at h
        · exact Except.noConfusion h
        · rename_i ws2 hs2 hsl
          simp only [Except.ok.injEq, Prod.mk.injEq] at h
          have := serializeList_handles xs ihm hs (d + 1) ws2 hs2 hsl
          simp [collectChannels, ← h.2, this]
  | hdict es ihm =>
      intro hs d w hs' h
      simp only [serialize_value] at h
      split at h
      · exact Except.noConfusion h
      · split at h
        · exact Except.noConfusion h
        · rename_i ws2 hs2 hsd
          simp only [Except.ok.injEq, Prod.mk.injEq] at h
          have := serializeDict_handles es ihm hs (d + 1) ws2 hs2 hsd
          simp [collectChannels, ← h.2, this]
  | hhandle c =>
      intro hs d w hs' h
      simp only [serialize_value, Except.ok.injEq, Prod.mk.injEq] at h
      simp [collectChannels, ← h.2]
  | _ =>
      intro hs d w hs' h
      simp only [serialize_value] at h
      repeat' split at h
      all_goals first
        | exact Except.noConfusion h
        | (simp only [Except.ok.injEq, Prod.mk.injEq] at h
           simp [collectChannels, ← h.2])

/-- Handle-tag indices in the output of `serializeList` lie between the
entry and exit lengths of the handle list, given the same property for the
elements. -/
theorem serializeList_bounds :
    ∀ xs : List PyValue,
    (∀ x ∈ xs, ∀ (hs : List Nat) (d : Nat) (w : PyValue) (hs' : List Nat),
        serialize_value x hs d = .ok (w, hs') →
        ∀ i ∈ wireHandleIndices w, (hs.length : Int) ≤ i ∧ i < (hs'.length : Int)) →
    ∀ (hs : List Nat) (d : Nat) (ws : List PyValue) (hs' : List Nat),
      serializeList xs hs d = .ok (ws, hs') →
      ∀ i ∈ wireHandleIndicesList ws, (hs.length : Int) ≤ i ∧ i < (hs'.length : Int) := by
  intro xs
  induction xs with
  | nil =>
      intro _ hs d ws hs' h i hi
      simp only [serializeList, Except.ok.injEq, Prod.mk.injEq] at h
      rw [← h.1] at hi
      simp [wireHandleIndicesList] at hi
  | cons a rest ihr =>
      intro ih hs d ws hs' h i hi
      simp only [serializeList] at h
      split at h
      · exact Except.noConfusion h
      rename_i w1 hs1 h1
      split at h
      · exact Except.noConfusion h
      rename_i ws2 hs2 h2
      simp only [Except.ok.injEq, Prod.mk.injEq] at h
      obtain ⟨hws, hhs⟩ := h
      subst hhs
      rw [← hws] at hi
      simp only [wireHandleIndicesList, List.mem_append] at hi
      have len1 : hs1 = hs ++ collectChannels a :=
        serialize_value_handles a hs d w1 hs1 h1
      have len2 : hs2 = hs1 ++ collectChannelsList rest :=
        serializeList_handles rest (fun x _ => serialize_value_handles x)
          hs1 d ws2 hs2 h2
      have l1 : hs.length ≤ hs1.length := by simp [len1]
      have l2 : hs1.length ≤ hs2.length := by simp [len2]
      cases hi with
      | inl hin =>
          have hb := ih a (by simp) hs d w1 hs1 h1 i hin
          omega
      | inr hin =>
          have hb := ihr (fun x hx => ih x (List.mem_cons_of_mem _ hx))
            hs1 d ws2 hs2 h2 i hin
          omega

/-- The same bound for `serializeDict`. -/
theorem serializeDict_bounds :
    ∀ es : List (String × PyValue),
    (∀ p ∈ es, ∀ (hs : List Nat) (d : Nat) (w : PyValue) (hs' : List Nat),
        serialize_value p.2 hs d = .ok (w, hs') →
        ∀ i ∈ wireHandleIndices w, (hs.length : Int) ≤ i ∧ i < (hs'.length : Int)) →
    ∀ (hs : List Nat) (d : Nat) (ws : List (String × PyValue)) (hs' : List Nat),
      serializeDict es hs d = .ok (ws, hs') →
      ∀ i ∈ wireHandleIndicesDict ws, (hs.length : Int) ≤ i ∧ i < (hs'.length : Int) := by
  intro es
  induction es with
  | nil =>
      intro _ hs d ws hs' h i hi
      simp only [serializeDict, Except.ok.injEq, Prod.mk.injEq] at h
      rw [← h.1] at hi
      simp [wireHandleIndicesDict] at hi
  | cons p rest ihr =>
      obtain ⟨k, a⟩ := p
      intro ih hs d ws hs' h i hi
      simp only [serializeDict] at h
      split at h
      · exact Except.noConfusion h
      rename_i w1 hs1 h1
      split at h
      · exact Except.noConfusion h
      rename_i ws2 hs2 h2
      simp only [Except.ok.injEq, Prod.mk.injEq] at h
      obtain ⟨hws, hhs⟩ := h
      subst hhs
      rw [← hws] at hi
      simp only [wireHandleIndicesDict, List.mem_append] at hi
      have len1 : hs1 = hs ++ collectChannels a :=
        serialize_value_handles a hs d w1 hs1 h1
      have len2 : hs2 = hs1 ++ collectChannelsDict rest :=
        serializeDict_handles rest (fun p _ => serialize_value_handles p.2)
          hs1 d ws2 hs2 h2
      have l1 : hs.length ≤ hs1.length := by simp [len1]
      have l2 : hs1.length ≤ hs2.length := by simp [len2]
      cases hi with
      | inl hin =>
          have hb := ih (k, a) (by simp) hs d w1 hs1 h1 i hin
          omega
      | inr hin =>
          have hb := ihr (fun x hx => ih x (List.mem_cons_of_mem _ hx))
            hs1 d ws2 hs2 h2 i hin
          omega

/-- Handle-tag indices in the wire output of `serialize_value` lie between
the entry and exit lengths of the handle list: the only handle-tag nodes at
wire-node positions are the ones the handle branch emits, carrying the
pre-append position. -/
theorem serialize_value_bounds (v : PyValue) :
    ∀ (hs : List Nat) (d : Nat) (w : PyValue) (hs' : List Nat),
      serialize_value v hs d = .ok (w, hs') →
      ∀ i ∈ wireHandleIndices w, (hs.length : Int) ≤ i ∧ i < (hs'.length : Int) := by
  induction v using PyValue.inductionOn with
  | hhandle c =>
      intro hs d w hs' h i hi
      simp only [serialize_value, Except.ok.injEq, Prod.mk.injEq] at h
      obtain ⟨hw, hhs⟩ := h
      rw [← hw] at hi
      have hred : wireHandleIndices (.dict [("h", .int hs.length)]) =
          [(hs.length : Int)] := rfl
      rw [hred] at hi
      simp only [List.mem_singleton] at hi
      subst hi
      simp [← hhs]
  | hlist xs ihm =>
      intro hs d w hs' h i hi
      simp only [serialize_value] at h
      split at h
      · exact Except.noConfusion h
      split at h
      · exact Except.noConfusion h
      rename_i ws2 hs2 hsl
      simp only [Except.ok.injEq, Prod.mk.injEq] at h
      obtain ⟨hw, hhs⟩ := h
      subst hhs
      rw [← hw] at hi
      have hred : wireHandleIndices (.dict [("a", .list ws2)]) =
          wireHandleIndicesList ws2 := rfl
      rw [hred] at hi
      exact serializeList_bounds xs ihm hs (d + 1) ws2 hs2 hsl i hi
  | hdict es ihm =>
      intro hs d w hs' h i hi
      simp only [serialize_value] at h
      split at h
      · exact Except.noConfusion h
      split at h
      · exact Except.noConfusion h
      rename_i ws2 hs2 hsd
      simp only [Except.ok.injEq, Prod.mk.injEq] at h
      obtain ⟨hw, hhs⟩ := h
      subst hhs
      rw [← hw] at hi
      have hred : wireHandleIndices (.dict [("o", .dict ws2)]) =
          wireHandleIndicesDict ws2 := rfl
      rw [hred] at hi
      exact serializeDict_bounds es ihm hs (d + 1) ws2 hs2 hsd i hi
  | _ =>
      intro hs d w hs' h i hi
      simp only [serialize_value] at h
      repeat' split at h
      all_goals first
        | exact Except.noConfusion h
        | (simp only [Except.ok.injEq, Prod.mk.injEq] at h
           rw [← h.1] at hi
           simp [wireHandleIndices, wireHandleIndicesList, wireHandleIndicesDict,
             rawHandleIndex] at hi)

/-- Round-trip for `serializeList`/`parseList`, given the round-trip for the
elements. -/
theorem parseList_roundtrip :
    ∀ xs : List PyValue,
    (∀ x ∈ xs, ∀ (hs : List Nat) (d : Nat) (w : PyValue) (hs' : List Nat),
        isPlainData x = true → serialize_value x hs d = .ok (w, hs') →
        ∃ v', parse_value w = .ok v' ∧ pyEq v' x = true) →
    ∀ (hs : List Nat) (d : Nat) (ws : List PyValue) (hs' : List Nat),
      isPlainDataList xs = true →
      serializeList xs hs d = .ok (ws, hs') →
      ∃ vs, parseList ws = .ok vs ∧ pyEqList vs xs = true := by
  intro xs
  induction xs with
  | nil =>
      intro _ hs d ws hs' _ h
      simp only [serializeList, Except.ok.injEq, Prod.mk.injEq] at h
      refine ⟨[], ?_, ?_⟩
      · rw [← h.1]; simp [parseList]
      · simp [pyEqList]
  | cons a rest ihr =>
      intro ih hs d ws hs' hp h
      simp only [serializeList] at h
      split at h
      · exact Except.noConfusion h
      rename_i w1 hs1 h1
      split at h
      · exact Except.noConfusion h
      rename_i ws2 hs2 h2
      simp only [Except.ok.injEq, Prod.mk.injEq] at h
      obtain ⟨hws, hhs⟩ := h
      simp only [isPlainDataList, Bool.and_eq_true] at hp
      obtain ⟨v1, hv1, he1⟩ := ih a (by simp) hs d w1 hs1 hp.1 h1
      obtain ⟨vs2, hvs2, he2⟩ :=
        ihr (fun x hx => ih x (List.mem_cons_of_mem _ hx)) hs1 d ws2 hs2 hp.2 h2
      refine ⟨v1 :: vs2, ?_, ?_⟩
      · rw [← hws]; simp only [parseList, hv1, hvs2]
      · simp [pyEqList, he1, he2]

/-- Round-trip for `serializeDict`/`parseDict`, given the round-trip for the
entry values. -/
theorem parseDict_roundtrip :
    ∀ es : List (String × PyValue),
    (∀ p ∈ es, ∀ (hs : List Nat) (d : Nat) (w : PyValue) (hs' : List Nat),
        isPlainData p.2 = true → serialize_value p.2 hs d = .ok (w, hs') →
        ∃ v', parse_value w = .ok v' ∧ pyEq v' p.2 = true) →
    ∀ (hs : List Nat) (d : Nat) (ws : List (String × PyValue)) (hs' : List Nat),
      isPlainDataDict es = true →
      serializeDict es hs d = .ok (ws, hs') →
      ∃ vs, parseDict ws = .ok vs ∧ pyEqDict vs es = true := by
  intro es
  induction es with
  | nil =>
      intro _ hs d ws hs' _ h
      simp only [serializeDict, Except.ok.injEq, Prod.mk.injEq] at h
      refine ⟨[], ?_, ?_⟩
      · rw [← h.1]; simp [parseDict]
      · simp [pyEqDict]
  | cons p rest ihr =>
      obtain ⟨k, a⟩ := p
      intro ih hs d ws hs' hp h
      simp only [serializeDict] at h
      split at h
      · exact Except.noConfusion h
      rename_i w1 hs1 h1
      split at h
      · exact Except.noConfusion h
      rename_i ws2 hs2 h2
      simp only [Except.ok.injEq, Prod.mk.injEq] at h
      obtain ⟨hws, hhs⟩ := h
      simp only [isPlainDataDict, Bool.and_eq_true] at hp
      obtain ⟨v1, hv1, he1⟩ := ih (k, a) (by simp) hs d w1 hs1 hp.1 h1
      obtain ⟨vs2, hvs2, he2⟩ :=
        ihr (fun x hx => ih x (List.mem_cons_of_mem _ hx)) hs1 d ws2 hs2 hp.2 h2
      refine ⟨(k, v1) :: vs2, ?_, ?_⟩
      · rw [← hws]; simp only [parseDict, hv1, hvs2]
      · simp [pyEqDict, he1, he2]

/-- Evaluation lemmas for `PyFloat.feq` on the shapes the encoder tests. -/
theorem feq_negZero_inf : PyFloat.feq .negZero .inf = false := rfl

theorem feq_negZero_ninf : PyFloat.feq .negZero .ninf = false := rfl

theorem feq_negZero_negZero : PyFloat.feq .negZero .negZero = true := rfl

theorem isnan_negZero : PyFloat.isnan .negZero = false := rfl

theorem feq_finite_inf (q : ℚ) : PyFloat.feq (.finite q) .inf = false := rfl

theorem feq_finite_ninf (q : ℚ) : PyFloat.feq (.finite q) .ninf = false := rfl

theorem feq_finite_negZero (q : ℚ) :
    PyFloat.feq (.finite q) .negZero = (q == 0) := rfl

theorem feq_negZero_finite (q : ℚ) :
    PyFloat.feq .negZero (.finite q) = (q == 0) := rfl

theorem feq_finite_finite (q r : ℚ) :
    PyFloat.feq (.finite q) (.finite r) = (q == r) := rfl

theorem isnan_finite (q : ℚ) : PyFloat.isnan (.finite q) = false := rfl

/-- Round-trip: decoding any successful encoding of a value made of
booleans, finite numbers, strings, lists and string-keyed dicts yields a
value Python-equal to the original. -/
theorem serialize_parse_roundtrip (v : PyValue) :
    ∀ (hs : List Nat) (d : Nat) (w : PyValue) (hs' : List Nat),
      isPlainData v = true → serialize_value v hs d = .ok (w, hs') →
      ∃ v', parse_value w = .ok v' ∧ pyEq v' v = true := by
  induction v using PyValue.inductionOn with
  | hnone => intro hs d w hs' hp _; simp [isPlainData] at hp
  | hdatetime dt => intro hs d w hs' hp _; simp [isPlainData] at hp
  | hhandle c => intro hs d w hs' hp _; simp [isPlainData] at hp
  | hother t => intro hs d w hs' hp _; simp [isPlainData] at hp
  | hbool b =>
      intro hs d w hs' _ h
      simp only [serialize_value] at h
      split at h
      · exact Except.noConfusion h
      · simp only [Except.ok.injEq, Prod.mk.injEq] at h
        exact ⟨.bool b, by rw [← h.1]; exact parse_value_bool b, by simp [pyEq]⟩
  | hint n =>
      intro hs d w hs' _ h
      simp only [serialize_value] at h
      split at h
      · exact Except.noConfusion h
      · simp only [Except.ok.injEq, Prod.mk.injEq] at h
        exact ⟨.int n, by rw [← h.1]; exact parse_value_int n, by simp [pyEq]⟩
  | hstr s =>
      intro hs d w hs' _ h
      simp only [serialize_value] at h
      split at h
      · exact Except.noConfusion h
      · simp only [Except.ok.injEq, Prod.mk.injEq] at h
        exact ⟨.str s, by rw [← h.1]; exact parse_value_str s, by simp [pyEq]⟩
  | hfloat f =>
      intro hs d w hs' hp h
      cases f with
      | nan => simp [isPlainData] at hp
      | inf => simp [isPlainData] at hp
      | ninf => simp [isPlainData] at hp
      | negZero =>
          simp only [serialize_value, feq_negZero_inf, feq_negZero_ninf,
            feq_negZero_negZero, isnan_negZero, if_false, if_true,
            Bool.false_eq_true, if_pos, ite_true, ite_false] at h
          split at h
          · exact Except.noConfusion h
          · simp only [Except.ok.injEq, Prod.mk.injEq] at h
            refine ⟨.float .negZero, ?_, by simp [pyEq, PyFloat.feq]⟩
            rw [← h.1]
            exact parse_value_minus_zero
      | finite q =>
          simp only [serialize_value, feq_finite_inf, feq_finite_ninf,
            feq_finite_negZero, isnan_finite, Bool.false_eq_true,
            ite_true, ite_false] at h
          split at h
          · exact Except.noConfusion h
          · split at h
            · rename_i hq
              simp only [Except.ok.injEq, Prod.mk.injEq] at h
              refine ⟨.float .negZero, ?_, ?_⟩
              · rw [← h.1]; exact parse_value_minus_zero
              · simpa [pyEq, PyFloat.feq] using hq
            · simp only [Except.ok.injEq, Prod.mk.injEq] at h
              refine ⟨.float (.finite q), ?_, by simp [pyEq, PyFloat.feq]⟩
              rw [← h.1]
              exact parse_value_float (.finite q)
  | hlist xs ihm =>
      intro hs d w hs' hp h
      simp only [serialize_value] at h
      split at h
      · exact Except.noConfusion h
      split at h
      · exact Except.noConfusion h
      rename_i ws2 hs2 hsl
      simp only [Except.ok.injEq, Prod.mk.injEq] at h
      obtain ⟨vs, hvs, he⟩ := parseList_roundtrip xs ihm hs (d + 1) ws2 hs2
        (by simpa [isPlainData] using hp) hsl
      refine ⟨.list vs, ?_, by simpa [pyEq] using he⟩
      rw [← h.1, parse_value_tag_a, hvs]
      rfl
  | hdict es ihm =>
      intro hs d w hs' hp h
      simp only [serialize_value] at h
      split at h
      · exact Except.noConfusion h
      split at h
      · exact Except.noConfusion h
      rename_i ws2 hs2 hsd
      simp only [Except.ok.injEq, Prod.mk.injEq] at h
      obtain ⟨vs, hvs, he⟩ := parseDict_roundtrip es ihm hs (d + 1) ws2 hs2
        (by simpa [isPlainData] using hp) hsd
      refine ⟨.dict vs, ?_, by simpa [pyEq] using he⟩
      rw [← h.1, parse_value_tag_o, hvs]
      rfl

/-!
The claim theorems.
-/

/-- C1: for every native value composed only of booleans, finite numbers,
strings, ordered sequences and string-keyed mappings (no handles, no
dates), decoding the encoding returns a value equal to the original:
`parse_value(serialize_value(v, handles, 0))` succeeds and is Python-`==`
to `v`.  (Note `pyEq` is needed rather than structural equality: positive
zero comes back as negative zero, which Python `==` identifies.) -/
theorem C1_round_trip (v : PyValue) (handles : List Nat) (w : PyValue)
    (handles' : List Nat)
    (hplain : isPlainData v = true)
    (henc : serialize_value v handles 0 = .ok (w, handles')) :
    decodesBackTo w v = true := by
  obtain ⟨v', hv', he⟩ :=
    serialize_parse_roundtrip v handles 0 w handles' hplain henc
  simp [decodesBackTo, hv', he]

theorem C1_round_trip_witness :
    isPlainData (.dict [("a", .list [.int 1, .str "x", .bool true])]) = true ∧
    decodesBackTo
      (.dict [("o", .dict [("a", .dict [("a", .list [.int 1, .str "x", .bool true])])])])
      (.dict [("a", .list [.int 1, .str "x", .bool true])]) = true :=
  ⟨rfl, C1_round_trip (.dict [("a", .list [.int 1, .str "x", .bool true])]) []
    (.dict [("o", .dict [("a", .dict [("a", .list [.int 1, .str "x", .bool true])])])])
    [] rfl rfl⟩

/-- C2 (amended): `parse_value` has no handle case and takes no resolver;
a wire node carrying the handle tag `{h: index}` is a dict with none of the
four recognised tags, so decoding returns it unchanged and no
`resolveHandle` is ever invoked. -/
theorem C2_handle_tag_returned_unchanged (i : Int) :
    parse_value (.dict [("h", .int i)]) = .ok (.dict [("h", .int i)]) := by
  simp only [parse_value]; rfl

/-- C2 counterexample to the claim as stated: decoding `{h: 0}` returns the
tagged dict itself, which is not a remote-object reference (`isHandle` is
false on it), so no resolver result is ever returned. -/
theorem C2_counterexample :
    parse_value (.dict [("h", .int 0)]) = .ok (.dict [("h", .int 0)]) ∧
    PyValue.isHandle (.dict [("h", .int 0)]) = false := by
  constructor
  · simp only [parse_value]; rfl
  · rfl

/-- C3: the claim says positive zero `0.0` falls through the sentinel
checks and is emitted as the raw number.  It does not: the source compares
`value == float("-0")` with Python `==`, and `0.0 == -0.0` is true in
IEEE-754 arithmetic, so `0.0` is encoded as the `"-0"` sentinel, which
decodes to `-0.0`. -/
theorem C3_positive_zero_encoded_as_minus_zero :
    serialize_value (.float (.finite 0)) [] 0 =
      .ok (.dict [("v", .str "-0")], []) ∧
    parse_value (.dict [("v", .str "-0")]) = .ok (.float .negZero) := by
  constructor
  · rfl
  · simp only [parse_value]; rfl

/-- C4 (amended): encoding a timestamp emits a date-tag node whose string
is the timestamp's own ISO-8601 rendering with a literal `"Z"` appended; no
conversion to UTC happens and any timezone offset is preserved inside the
wire string.  Decoding strips the final character and re-parses, so a
microsecond-precision timestamp with UTC offset +02:00 round-trips to an
equal timestamp that still carries offset +120 minutes, not offset zero. -/
theorem C4_date_tag_no_utc_normalization :
    (∀ (dt : PyDatetime) (hs : List Nat),
        serialize_value (.datetime dt) hs 0 =
          .ok (.dict [("d", .str (dt.isoformat ++ "Z"))], hs)) ∧
    (∀ s : String,
        parse_value (.dict [("d", .str s)]) =
          (fromisoformat (s.dropRight 1)).map (fun dt => .datetime dt)) ∧
    parse_value (.dict [("d", .str
        (PyDatetime.isoformat ⟨2020, 1, 2, 3, 4, 5, 6, some 120⟩ ++ "Z"))]) =
      .ok (.datetime ⟨2020, 1, 2, 3, 4, 5, 6, some 120⟩) ∧
    (PyDatetime.mk 2020 1 2 3 4 5 6 (some 120)).utcoffsetMinutes = some 120 := by
  refine ⟨fun dt hs => rfl, fun s => parse_value_tag_d s, ?_, rfl⟩
  rw [parse_value_tag_d]
  rfl

/-- C4 counterexample to the claim as stated: the wire string for an aware
timestamp keeps its `+02:00` offset (followed by the appended `Z`), and the
decoded value's UTC offset is 120 minutes, not zero. -/
theorem C4_counterexample :
    serialize_value (.datetime ⟨2020, 1, 2, 3, 4, 5, 6, some 120⟩) [] 0 =
      .ok (.dict [("d", .str "2020-01-02T03:04:05.000006+02:00Z")], []) ∧
    parse_value (.dict [("d", .str "2020-01-02T03:04:05.000006+02:00Z")]) =
      .ok (.datetime ⟨2020, 1, 2, 3, 4, 5, 6, some 120⟩) ∧
    (PyDatetime.mk 2020 1 2 3 4 5 6 (some 120)).utcoffsetMinutes ≠ some 0 := by
  refine ⟨rfl, ?_, by decide⟩
  rw [parse_value_tag_d]
  rfl

set_option maxRecDepth 20000 in
/-- C5: for every non-handle value the depth check fires before the node's
content is processed, so any non-handle value at depth above 100 fails with
the depth error; a structure nested 101 levels deep fails at depth 0 while
one nested exactly 100 levels deep succeeds.  No part of a result
accompanies the error (`Except.error` carries only the message). -/
theorem C5_depth_limit :
    (∀ (v : PyValue) (hs : List Nat) (d : Nat), 100 < d → v.isHandle = false →
        serialize_value v hs d = .error "Maximum argument depth exceeded") ∧
    serialize_argument (nestList 101) = .error "Maximum argument depth exceeded" ∧
    ∃ r, serialize_argument (nestList 100) = .ok r := by
  exact ⟨serialize_depth_exceeded, rfl, ⟨_, rfl⟩⟩

theorem C5_depth_limit_witness :
    serialize_value (.str "x") [] 101 = .error "Maximum argument depth exceeded" :=
  C5_depth_limit.1 (.str "x") [] 101 (by decide) rfl

/-- C6: in the output of `serialize_argument`, each remote-object
reference is encoded as a handle-tag node whose index equals the position
at which its channel was appended to the Handle List, in depth-first
left-to-right encounter order, with duplicates appended again rather than
deduplicated — encoding `[refA, refB]` gives `{a:[{h:0},{h:1}]}` with
handles `[idA, idB]`, and `[refA, refA]` gives `{a:[{h:0},{h:1}]}` with
handles `[idA, idA]` — hence every handle index embedded in a handle-tag
wire node (collected over wire-node positions: array-payload elements and
object-payload values) is a valid index into the returned Handle List. -/
theorem C6_handle_indices :
    (∀ (v : PyValue) (r : SerializedArgument),
        serialize_argument v = .ok r → r.handles = collectChannels v) ∧
    serialize_argument (.list [.handle 10, .handle 20]) =
      .ok ⟨.dict [("a", .list [.dict [("h", .int 0)], .dict [("h", .int 1)]])],
        [10, 20]⟩ ∧
    serialize_argument (.list [.handle 10, .handle 10]) =
      .ok ⟨.dict [("a", .list [.dict [("h", .int 0)], .dict [("h", .int 1)]])],
        [10, 10]⟩ ∧
    (∀ (v : PyValue) (r : SerializedArgument),
        serialize_argument v = .ok r →
        handleIndicesValid r.value r.handles.length = true) := by
  refine ⟨?_, rfl, rfl, ?_⟩
  · intro v r h
    simp only [serialize_argument] at h
    split at h
    · exact Except.noConfusion h
    rename_i w hs hsv
    have := serialize_value_handles v [] 0 w hs hsv
    simp only [List.nil_append] at this
    simp only [Except.ok.injEq] at h
    rw [← h, ← this]
  · intro v r h
    simp only [serialize_argument] at h
    split at h
    · exact Except.noConfusion h
    rename_i w hs hsv
    simp only [Except.ok.injEq] at h
    subst h
    have hb := serialize_value_bounds v [] 0 w hs hsv
    simp only [List.length_nil, Nat.cast_zero] at hb
    simp only [handleIndicesValid, List.all_eq_true, Bool.and_eq_true,
      decide_eq_true_eq]
    intro i hi
    exact ⟨(hb i hi).1, (hb i hi).2⟩

theorem C6_handle_indices_witness :
    handleIndicesValid
      (.dict [("a", .list [.dict [("h", .int 0)], .dict [("h", .int 1)]])]) 2 = true :=
  C6_handle_indices.2.2.2 (.list [.handle 10, .handle 20])
    ⟨.dict [("a", .list [.dict [("h", .int 0)], .dict [("h", .int 1)]])], [10, 20]⟩
    rfl

/-- C7: the remote-object-reference case of `serialize_value` is evaluated
before the depth check, so for every depth `d` — including depths above the
ceiling of 100 — serializing a handle appends its channel to the Handle
List and returns a handle-tag node carrying the index it was appended at;
it never raises the depth error. -/
theorem C7_handle_before_depth_check (c : Nat) (hs : List Nat) (d : Nat) :
    serialize_value (.handle c) hs d =
      .ok (.dict [("h", .int hs.length)], hs ++ [c]) := rfl

/-- C8: the absent value and unrecognised native types both encode to the
`undefined` sentinel without raising, and both the `undefined` and `null`
sentinels decode to the absent value. -/
theorem C8_undefined_and_null (hs : List Nat) (t : String) :
    serialize_value .none hs 0 = .ok (.dict [("v", .str "undefined")], hs) ∧
    serialize_value (.other t) hs 0 = .ok (.dict [("v", .str "undefined")], hs) ∧
    parse_value (.dict [("v", .str "undefined")]) = .ok .none ∧
    parse_value (.dict [("v", .str "null")]) = .ok .none :=
  ⟨rfl, rfl, parse_value_undefined, parse_value_null⟩

/-- C9: decoding a wire node that is a mapping carrying none of the
recognised tags `v`, `a`, `d`, `o` returns the node unchanged and never
raises. -/
theorem C9_unknown_tag_returned_unchanged (es : List (String × PyValue))
    (hv : lookupKey "v" es = Option.none) (ha : lookupKey "a" es = Option.none)
    (hd : lookupKey "d" es = Option.none) (ho : lookupKey "o" es = Option.none) :
    parse_value (.dict es) = .ok (.dict es) := by
  simp only [parse_value, hv, hd]
  split
  · rename_i a heq
    rw [ha] at heq
    exact Option.noConfusion heq
  · split
    · rename_i o heq
      rw [ho] at heq
      exact Option.noConfusion heq
    · rfl

theorem C9_unknown_tag_witness :
    parse_value (.dict [("x", .int 1), ("y", .str "z")]) =
      .ok (.dict [("x", .int 1), ("y", .str "z")]) :=
  C9_unknown_tag_returned_unchanged [("x", .int 1), ("y", .str "z")]
    rfl rfl rfl rfl

/-- C10: sentinel strings are only interpreted inside scalar-tag nodes: any
native string — in particular `"Infinity"`, `"-Infinity"`, `"NaN"`, `"-0"`,
`"undefined"`, `"null"` — is encoded as the raw untagged string, and
decoding a bare untagged string returns it unchanged, so such strings
round-trip to themselves and are never confused with the floats or the
absent value they spell. -/
theorem C10_sentinel_strings_roundtrip (s : String) (hs : List Nat) :
    serialize_value (.str s) hs 0 = .ok (.str s, hs) ∧
    parse_value (.str s) = .ok (.str s) :=
  ⟨rfl, parse_value_str s⟩
